import Mathlib

/-!
# Verification of the terminal-cubes ASCII renderer

Shallow embedding of the 3D rendering core of `terminal-cubes.js`:
the `vec3`/`mat4` math library, the look-at view matrix and perspective
projection matrix, the depth-tested rasterizer (`drawPixel`, `drawLine`
with its Bresenham walk and interpolated depth), the per-triangle
lighting/culling step of `renderFrame`, and the `--ascii` ramp argument
parsing.  JS numbers are modelled as elements of a linear ordered field
(`ℝ` where `Math.sqrt`/trigonometry appear, generically otherwise);
`Math.round` is Mathlib's `round` (both round half toward +∞); the
`Infinity` initial depth is `⊤ : WithTop _`; the width×height JS arrays
are modelled as functions from the flat index `y * width + x`.
-/

namespace TC

/-- Model of the `{x, y, z}` records produced by `vec3.create`. -/
structure Vec3 (α : Type) where
  x : α
  y : α
  z : α
deriving DecidableEq

/-- Model of `vec3.subtract`. -/
def vsub (a b : Vec3 ℝ) : Vec3 ℝ := ⟨a.x - b.x, a.y - b.y, a.z - b.z⟩

/-- Model of `vec3.dot`. -/
def vdot (a b : Vec3 ℝ) : ℝ := a.x * b.x + a.y * b.y + a.z * b.z

/-- Model of `vec3.cross`. -/
def vcross (a b : Vec3 ℝ) : Vec3 ℝ :=
  ⟨a.y * b.z - a.z * b.y, a.z * b.x - a.x * b.z, a.x * b.y - a.y * b.x⟩

/-- The length computed inside `vec3.normalize`:
`Math.sqrt(a.x*a.x + a.y*a.y + a.z*a.z)`. -/
noncomputable def vlen (a : Vec3 ℝ) : ℝ :=
  Real.sqrt (a.x * a.x + a.y * a.y + a.z * a.z)

/-- Model of `vec3.normalize`: divides by the length when `len > 0`,
returns the input unchanged otherwise. -/
noncomputable def vnormalize (a : Vec3 ℝ) : Vec3 ℝ :=
  let len := vlen a
  if 0 < len then ⟨a.x / len, a.y / len, a.z / len⟩ else a

/-- Model of the flat row-major 16-element arrays produced by `mat4`:
field `eIJ` is the array element at index `I * 4 + J`. -/
structure Mat4 where
  e00 : ℝ
  e01 : ℝ
  e02 : ℝ
  e03 : ℝ
  e10 : ℝ
  e11 : ℝ
  e12 : ℝ
  e13 : ℝ
  e20 : ℝ
  e21 : ℝ
  e22 : ℝ
  e23 : ℝ
  e30 : ℝ
  e31 : ℝ
  e32 : ℝ
  e33 : ℝ

/-- Model of `mat4.create` (the identity array). -/
def mat4create : Mat4 :=
  ⟨1, 0, 0, 0, 0, 1, 0, 0, 0, 0, 1, 0, 0, 0, 0, 1⟩

/-- Model of `mat4.multiply`:
`result[i*4+j] = Σ_k a[i*4+k] * b[k*4+j]`. -/
def matMul (a b : Mat4) : Mat4 where
  e00 := a.e00 * b.e00 + a.e01 * b.e10 + a.e02 * b.e20 + a.e03 * b.e30
  e01 := a.e00 * b.e01 + a.e01 * b.e11 + a.e02 * b.e21 + a.e03 * b.e31
  e02 := a.e00 * b.e02 + a.e01 * b.e12 + a.e02 * b.e22 + a.e03 * b.e32
  e03 := a.e00 * b.e03 + a.e01 * b.e13 + a.e02 * b.e23 + a.e03 * b.e33
  e10 := a.e10 * b.e00 + a.e11 * b.e10 + a.e12 * b.e20 + a.e13 * b.e30
  e11 := a.e10 * b.e01 + a.e11 * b.e11 + a.e12 * b.e21 + a.e13 * b.e31
  e12 := a.e10 * b.e02 + a.e11 * b.e12 + a.e12 * b.e22 + a.e13 * b.e32
  e13 := a.e10 * b.e03 + a.e11 * b.e13 + a.e12 * b.e23 + a.e13 * b.e33
  e20 := a.e20 * b.e00 + a.e21 * b.e10 + a.e22 * b.e20 + a.e23 * b.e30
  e21 := a.e20 * b.e01 + a.e21 * b.e11 + a.e22 * b.e21 + a.e23 * b.e31
  e22 := a.e20 * b.e02 + a.e21 * b.e12 + a.e22 * b.e22 + a.e23 * b.e32
  e23 := a.e20 * b.e03 + a.e21 * b.e13 + a.e22 * b.e23 + a.e23 * b.e33
  e30 := a.e30 * b.e00 + a.e31 * b.e10 + a.e32 * b.e20 + a.e33 * b.e30
  e31 := a.e30 * b.e01 + a.e31 * b.e11 + a.e32 * b.e21 + a.e33 * b.e31
  e32 := a.e30 * b.e02 + a.e31 * b.e12 + a.e32 * b.e22 + a.e33 * b.e32
  e33 := a.e30 * b.e03 + a.e31 * b.e13 + a.e32 * b.e23 + a.e33 * b.e33

/-- Model of `mat4.fromXRotation` (flat array
`[1,0,0,0, 0,c,-s,0, 0,s,c,0, 0,0,0,1]`). -/
noncomputable def fromXRotation (angle : ℝ) : Mat4 :=
  let c := Real.cos angle
  let s := Real.sin angle
  ⟨1, 0, 0, 0, 0, c, -s, 0, 0, s, c, 0, 0, 0, 0, 1⟩

/-- Model of `mat4.fromYRotation` (flat array
`[c,0,s,0, 0,1,0,0, -s,0,c,0, 0,0,0,1]`). -/
noncomputable def fromYRotation (angle : ℝ) : Mat4 :=
  let c := Real.cos angle
  let s := Real.sin angle
  ⟨c, 0, s, 0, 0, 1, 0, 0, -s, 0, c, 0, 0, 0, 0, 1⟩

/-- The homogeneous `w` computed inside `mat4.transformPoint`:
`w = m[3]*p.x + m[7]*p.y + m[11]*p.z + m[15]`. -/
def tpW (m : Mat4) (p : Vec3 ℝ) : ℝ :=
  m.e03 * p.x + m.e13 * p.y + m.e23 * p.z + m.e33

/-- Model of `mat4.transformPoint` with its perspective divide by `w`. -/
noncomputable def transformPoint (m : Mat4) (p : Vec3 ℝ) : Vec3 ℝ :=
  let w := tpW m p
  ⟨(m.e00 * p.x + m.e10 * p.y + m.e20 * p.z + m.e30) / w,
   (m.e01 * p.x + m.e11 * p.y + m.e21 * p.z + m.e31) / w,
   (m.e02 * p.x + m.e12 * p.y + m.e22 * p.z + m.e32) / w⟩

/-- Model of the `camera` objects `{position, target, up}`. -/
structure Camera where
  position : Vec3 ℝ
  target : Vec3 ℝ
  up : Vec3 ℝ

/-- The scene camera: position `(0,0,-5)`, target the origin, up `(0,1,0)`. -/
def sceneCamera : Camera := ⟨⟨0, 0, -5⟩, ⟨0, 0, 0⟩, ⟨0, 1, 0⟩⟩

/-- Model of `createViewMatrix`. -/
noncomputable def createViewMatrix (c : Camera) : Mat4 :=
  let zAxis := vnormalize (vsub c.position c.target)
  let xAxis := vnormalize (vcross c.up zAxis)
  let yAxis := vcross zAxis xAxis
  ⟨xAxis.x, yAxis.x, zAxis.x, 0,
   xAxis.y, yAxis.y, zAxis.y, 0,
   xAxis.z, yAxis.z, zAxis.z, 0,
   -vdot xAxis c.position, -vdot yAxis c.position, -vdot zAxis c.position, 1⟩

/-- Model of `createProjectionMatrix`. -/
noncomputable def createProjectionMatrix (fov aspect near far : ℝ) : Mat4 :=
  let f := 1 / Real.tan (fov / 2)
  let rangeInv := 1 / (near - far)
  ⟨f / aspect, 0, 0, 0,
   0, f, 0, 0,
   0, 0, (near + far) * rangeInv, -1,
   0, 0, near * far * rangeInv * 2, 0⟩

/-- Model of the per-object `{position, rotation, scale}` records of the
`cubes` scene list. -/
structure Cube where
  position : Vec3 ℝ
  rotation : Vec3 ℝ
  scale : Vec3 ℝ

/-- The world matrix `renderFrame` builds for a cube:
`mat4.multiply(mat4.fromXRotation(rot.x), mat4.fromYRotation(rot.y))`. -/
noncomputable def worldMatrix (c : Cube) : Mat4 :=
  matMul (fromXRotation c.rotation.x) (fromYRotation c.rotation.y)

/-- The combined per-cube transform of `renderFrame`:
`mat4.multiply(projectionMatrix, mat4.multiply(viewMatrix, worldMatrix))`. -/
noncomputable def cubeTransform (proj view : Mat4) (c : Cube) : Mat4 :=
  matMul proj (matMul view (worldMatrix c))

/-- A framebuffer cell: either the initial blank fill `' '` or the escape
sequence `\x1b[38;2;R;G;Bm` + glyph written by `drawPixel`, represented by
its rounded RGB components and the glyph character. -/
inductive FrameCell where
  | blank : FrameCell
  | px (r g b : ℤ) (ch : Char) : FrameCell
deriving DecidableEq

/-- Model of the `{r, g, b}` object returned by `color.toRgb()`. -/
structure RGB (α : Type) where
  r : α
  g : α
  b : α
deriving DecidableEq

/-- Model of `drawPixel(x, y, z, char, color, frameBuffer, zBuffer)`:
rounds `x`, `y`, silently drops out-of-bounds writes, and on a strict
depth-test pass overwrites both the depth cell and the character/color
cell at flat index `y * WIDTH + x`. -/
def drawPixel {α : Type} [LinearOrderedField α] [FloorRing α]
    (W H : ℤ) (x y z : α) (ch : Char) (color : RGB α)
    (fb : ℤ → FrameCell) (zb : ℤ → WithTop α) :
    (ℤ → FrameCell) × (ℤ → WithTop α) :=
  let xi := round x
  let yi := round y
  if xi < 0 ∨ W ≤ xi ∨ yi < 0 ∨ H ≤ yi then (fb, zb)
  else
    let index := yi * W + xi
    if (z : WithTop α) < zb index then
      (Function.update fb index
        (FrameCell.px (round color.r) (round color.g) (round color.b) ch),
       Function.update zb index (z : WithTop α))
    else (fb, zb)

/-- The pair of frame and depth buffers threaded through a frame. -/
def Bufs (α : Type) : Type := (ℤ → FrameCell) × (ℤ → WithTop α)

/-- The fresh buffers built at the top of `renderFrame`:
`Array(W*H).fill(' ')` and `Array(W*H).fill(Infinity)`. -/
def initBufs {α : Type} : Bufs α := (fun _ => FrameCell.blank, fun _ => ⊤)

/-- One fragment, i.e. the arguments of one `drawPixel` call. -/
structure Frag (α : Type) where
  x : α
  y : α
  z : α
  ch : Char
  color : RGB α
deriving DecidableEq

/-- Sequential execution of a list of `drawPixel` calls on the buffers. -/
def runFrags {α : Type} [LinearOrderedField α] [FloorRing α]
    (W H : ℤ) (l : List (Frag α)) (b : Bufs α) : Bufs α :=
  l.foldl (fun b f => drawPixel W H f.x f.y f.z f.ch f.color b.1 b.2) b

/-- The integer Bresenham loop of `drawLine`, fuelled: emits the current
pixel, breaks at the endpoint, otherwise advances `x0`/`y0`/`err` exactly
as the source and recurses. -/
def bresWalk (x1 y1 dx dy sx sy : ℤ) : ℕ → ℤ → ℤ → ℤ → List (ℤ × ℤ)
  | 0, _, _, _ => []
  | fuel + 1, x0, y0, err =>
    (x0, y0) ::
      (if x0 = x1 ∧ y0 = y1 then []
       else
        let e2 := 2 * err
        let x0n := if -dy < e2 then x0 + sx else x0
        let errx := if -dy < e2 then err - dy else err
        let y0n := if e2 < dx then y0 + sy else y0
        let erry := if e2 < dx then errx + dx else errx
        bresWalk x1 y1 dx dy sx sy fuel x0n y0n erry)

/-- Fuel sufficient for the Bresenham loop (it runs `max dx dy + 1 ≤
dx + dy + 1` iterations). -/
def bresFuel (dx dy : ℤ) : ℕ := (dx + dy).toNat + 1

/-- Invariant of the Bresenham loop state: after `i` x-steps and `j`
y-steps from the rounded start `(xs, ys)`, the current pixel is
`(xs + sx*i, ys + sy*j)`, the error term has its closed form, and neither
axis has overshot its total step count `dx` resp. `dy`. -/
def BInv (xs ys dx dy sx sy i j x0 y0 err : ℤ) : Prop :=
  x0 = xs + sx * i ∧ y0 = ys + sy * j ∧ err = dx - dy - i * dy + j * dx ∧
  0 ≤ i ∧ i ≤ dx ∧ 0 ≤ j ∧ j ≤ dy

/-- Relation between consecutive pixels emitted by the Bresenham walk:
both lie in the step lattice and the successor advances by one step on at
least one axis, never moving backwards or overshooting. -/
def WalkRel (xs ys dx dy sx sy : ℤ) (a b : ℤ × ℤ) : Prop :=
  ∃ i j i1 j1 : ℤ,
    0 ≤ i ∧ i ≤ dx ∧ 0 ≤ j ∧ j ≤ dy ∧ i1 ≤ dx ∧ j1 ≤ dy ∧
    a = (xs + sx * i, ys + sy * j) ∧ b = (xs + sx * i1, ys + sy * j1) ∧
    i ≤ i1 ∧ i1 ≤ i + 1 ∧ j ≤ j1 ∧ j1 ≤ j + 1 ∧ i + j < i1 + j1

/-- The pixels stepped by `drawLine(p1, p2, ...)`, from the rounded start
to the rounded end. -/
noncomputable def linePixels (p1 p2 : Vec3 ℝ) : List (ℤ × ℤ) :=
  let x0 := round p1.x
  let y0 := round p1.y
  let x1 := round p2.x
  let y1 := round p2.y
  let dx := |x1 - x0|
  let dy := |y1 - y0|
  let sx : ℤ := if x0 < x1 then 1 else -1
  let sy : ℤ := if y0 < y1 then 1 else -1
  bresWalk x1 y1 dx dy sx sy (bresFuel dx dy) x0 y0 (dx - dy)

/-- The interpolation parameter computed at each stepped pixel of
`drawLine`: distance from the stepped pixel to the float start point,
divided by the distance from the rounded end point to the float start
point. -/
noncomputable def lineT (p1 p2 : Vec3 ℝ) (q : ℤ × ℤ) : ℝ :=
  Real.sqrt (((q.1 : ℝ) - p1.x) ^ 2 + ((q.2 : ℝ) - p1.y) ^ 2) /
    Real.sqrt (((round p2.x : ℝ) - p1.x) ^ 2 + ((round p2.y : ℝ) - p1.y) ^ 2)

/-- The interpolated depth `z = p1.z + (p2.z - p1.z) * t` passed to
`drawPixel` at a stepped pixel. -/
noncomputable def lineZ (p1 p2 : Vec3 ℝ) (q : ℤ × ℤ) : ℝ :=
  p1.z + (p2.z - p1.z) * lineT p1 p2 q

/-- The interpolated depths of a `drawLine` call, in walk order. -/
noncomputable def lineDepths (p1 p2 : Vec3 ℝ) : List ℝ :=
  (linePixels p1 p2).map (lineZ p1 p2)

/-- Model of `drawLine(p1, p2, char, color, frameBuffer, zBuffer)`. -/
noncomputable def drawLine (W H : ℤ) (p1 p2 : Vec3 ℝ) (ch : Char)
    (color : RGB ℝ) (b : Bufs ℝ) : Bufs ℝ :=
  (linePixels p1 p2).foldl
    (fun b q => drawPixel W H (q.1 : ℝ) (q.2 : ℝ) (lineZ p1 p2 q) ch color b.1 b.2) b

/-- The fixed light direction of `renderFrame`:
`vec3.normalize(vec3.create(1, 1, -1))`. -/
noncomputable def lightDir : Vec3 ℝ := vnormalize ⟨1, 1, -1⟩

/-- The per-triangle face normal of `renderFrame`:
`normalize(cross(subtract(v2, v1), subtract(v3, v1)))`. -/
noncomputable def faceNormal (v1 v2 v3 : Vec3 ℝ) : Vec3 ℝ :=
  vnormalize (vcross (vsub v2 v1) (vsub v3 v1))

/-- The lighting intensity of a triangle: `dot(normal, lightDir)`. -/
noncomputable def triIntensity (v1 v2 v3 : Vec3 ℝ) : ℝ :=
  vdot (faceNormal v1 v2 v3) lightDir

/-- The glyph index `Math.floor(intensity * (ASCII_RAMP.length - 1))`. -/
noncomputable def glyphIndex (intensity : ℝ) (len : ℕ) : ℤ :=
  ⌊intensity * ((len : ℝ) - 1)⌋

/-- The ramp character `ASCII_RAMP[glyphIndex]` (an out-of-range JS index
yields `undefined`, modelled as the blank character). -/
noncomputable def rampChar (ramp : String) (intensity : ℝ) : Char :=
  ramp.toList.getD (glyphIndex intensity ramp.length).toNat ' '

/-- The edges emitted for one triangle: the three `drawLine` calls when
`intensity > 0`, nothing otherwise. -/
noncomputable def triEdges (v1 v2 v3 tv1 tv2 tv3 : Vec3 ℝ) :
    List (Vec3 ℝ × Vec3 ℝ) :=
  if 0 < triIntensity v1 v2 v3 then [(tv1, tv2), (tv2, tv3), (tv3, tv1)] else []

/-- The per-triangle step of `renderFrame`: compute the intensity, cull
when `intensity ≤ 0`, otherwise pick the ramp glyph and gradient color and
rasterize the three edges (`gradient.rgbAt` is the external tinygradient
collaborator, passed as `grad`). -/
noncomputable def processTriangle (W H : ℤ) (ramp : String)
    (grad : ℝ → RGB ℝ) (v1 v2 v3 tv1 tv2 tv3 : Vec3 ℝ) (b : Bufs ℝ) :
    Bufs ℝ :=
  let intensity := triIntensity v1 v2 v3
  if 0 < intensity then
    let ch := rampChar ramp intensity
    let color := grad intensity
    drawLine W H tv3 tv1 ch color
      (drawLine W H tv2 tv3 ch color (drawLine W H tv1 tv2 ch color b))
  else b

/-- The default character ramp `' .:-=+*#%@'`. -/
def defaultRamp : String := " .:-=+*#%@"

/-- Model of the `--ascii` argument parsing: the flag's value replaces the
default ramp only when it is present and truthy (a non-empty string). -/
def parseAsciiRamp (args : List String) : String :=
  match args.indexOf? "--ascii" with
  | none => defaultRamp
  | some i =>
    match args.get? (i + 1) with
    | none => defaultRamp
    | some s => if s = "" then defaultRamp else s

/-! ## C6: `drawPixel` bounds check and strict depth test -/

/-- C6: `drawPixel` rounds `x, y`; out-of-bounds rounded coordinates leave
both buffers unchanged; in bounds, the write happens iff `z` is strictly
below the stored depth (ties keep the earlier write), and a passing test
overwrites both the depth cell and the character/color cell. -/
theorem c6_drawPixel_spec {α : Type} [LinearOrderedField α] [FloorRing α]
    (W H : ℤ) (x y z : α) (ch : Char) (col : RGB α)
    (fb : ℤ → FrameCell) (zb : ℤ → WithTop α) :
    ((round x < 0 ∨ W ≤ round x ∨ round y < 0 ∨ H ≤ round y) →
        drawPixel W H x y z ch col fb zb = (fb, zb)) ∧
    ((0 ≤ round x ∧ round x < W ∧ 0 ≤ round y ∧ round y < H) →
      (((z : WithTop α) < zb (round y * W + round x) →
          drawPixel W H x y z ch col fb zb =
            (Function.update fb (round y * W + round x)
              (FrameCell.px (round col.r) (round col.g) (round col.b) ch),
             Function.update zb (round y * W + round x) (z : WithTop α))) ∧
       (¬ (z : WithTop α) < zb (round y * W + round x) →
          drawPixel W H x y z ch col fb zb = (fb, zb)))) := by
  refine ⟨fun h => ?_, fun h => ⟨fun hz => ?_, fun hz => ?_⟩⟩
  · simp only [drawPixel, if_pos h]
  · have hng : ¬ (round x < 0 ∨ W ≤ round x ∨ round y < 0 ∨ H ≤ round y) := by omega
    simp only [drawPixel, if_neg hng, if_pos hz]
  · have hng : ¬ (round x < 0 ∨ W ≤ round x ∨ round y < 0 ∨ H ≤ round y) := by omega
    simp only [drawPixel, if_neg hng, if_neg hz]

/-- Witness for C6 at a concrete in-bounds, depth-test-passing call. -/
theorem c6_drawPixel_spec_witness :
    ((0:ℤ) ≤ round (3:ℚ) ∧ round (3:ℚ) < 10 ∧ (0:ℤ) ≤ round (2:ℚ) ∧ round (2:ℚ) < 5) ∧
    drawPixel 10 5 (3:ℚ) (2:ℚ) (7:ℚ) 'a' ⟨1, 2, 3⟩
        (fun _ => FrameCell.blank) (fun _ => ⊤) =
      (Function.update (fun _ => FrameCell.blank) (round (2:ℚ) * 10 + round (3:ℚ))
        (FrameCell.px (round (1:ℚ)) (round (2:ℚ)) (round (3:ℚ)) 'a'),
       Function.update (fun _ => ⊤) (round (2:ℚ) * 10 + round (3:ℚ)) ((7:ℚ) : WithTop ℚ)) := by
  refine ⟨by simp, ?_⟩
  exact ((c6_drawPixel_spec 10 5 (3:ℚ) 2 7 'a' ⟨1, 2, 3⟩ _ _).2 (by simp)).1
    (by simpa using WithTop.coe_lt_top (7:ℚ))

/-! ## C10: `drawPixel` touches at most one cell -/

/-- C10: a `drawPixel` call modifies at most the single cell at flat index
`round y * W + round x` in each buffer; every other cell is unchanged, and
when the coordinates are out of bounds or the depth test fails both
buffers are entirely unchanged. -/
theorem c10_drawPixel_frame {α : Type} [LinearOrderedField α] [FloorRing α]
    (W H : ℤ) (x y z : α) (ch : Char) (col : RGB α)
    (fb : ℤ → FrameCell) (zb : ℤ → WithTop α) :
    (∀ i : ℤ, i ≠ round y * W + round x →
      ((drawPixel W H x y z ch col fb zb).1 i = fb i ∧
       (drawPixel W H x y z ch col fb zb).2 i = zb i)) ∧
    (((round x < 0 ∨ W ≤ round x ∨ round y < 0 ∨ H ≤ round y) ∨
        ¬ (z : WithTop α) < zb (round y * W + round x)) →
      drawPixel W H x y z ch col fb zb = (fb, zb)) := by
  constructor
  · intro i hi
    by_cases hg : round x < 0 ∨ W ≤ round x ∨ round y < 0 ∨ H ≤ round y
    · simp only [drawPixel, if_pos hg]
      exact ⟨trivial, trivial⟩
    · by_cases hz : (z : WithTop α) < zb (round y * W + round x)
      · simp only [drawPixel, if_neg hg, if_pos hz]
        exact ⟨Function.update_noteq hi _ _, Function.update_noteq hi _ _⟩
      · simp only [drawPixel, if_neg hg, if_neg hz]
        exact ⟨trivial, trivial⟩
  · rintro (hg | hz)
    · simp only [drawPixel, if_pos hg]
    · by_cases hg : round x < 0 ∨ W ≤ round x ∨ round y < 0 ∨ H ≤ round y
      · simp only [drawPixel, if_pos hg]
      · simp only [drawPixel, if_neg hg, if_neg hz]

/-- Witness for C10: the cell at index 0 is untouched by a write to the
cell at index `2 * 10 + 3`. -/
theorem c10_drawPixel_frame_witness :
    ((0:ℤ) ≠ round (2:ℚ) * 10 + round (3:ℚ)) ∧
    ((drawPixel 10 5 (3:ℚ) (2:ℚ) (7:ℚ) 'b' ⟨4, 5, 6⟩
        (fun _ => FrameCell.blank) (fun _ => ⊤)).1 0 =
      (fun _ => FrameCell.blank : ℤ → FrameCell) 0 ∧
     (drawPixel 10 5 (3:ℚ) (2:ℚ) (7:ℚ) 'b' ⟨4, 5, 6⟩
        (fun _ => FrameCell.blank) (fun _ => ⊤)).2 0 =
      (fun _ => (⊤ : WithTop ℚ) : ℤ → WithTop ℚ) 0) := by
  refine ⟨by simp, ?_⟩
  exact (c10_drawPixel_frame 10 5 (3:ℚ) 2 7 'b' ⟨4, 5, 6⟩ _ _).1 0 (by simp)

/-! ## Helper lemmas about `vec3` lengths and dot products -/

/-- Normalizing a vector of positive length yields a unit vector. -/
theorem vlen_vnormalize_of_pos {v : Vec3 ℝ} (h : 0 < vlen v) :
    vlen (vnormalize v) = 1 := by
  have hS : 0 < v.x * v.x + v.y * v.y + v.z * v.z := Real.sqrt_pos.mp h
  have hL2 : vlen v * vlen v = v.x * v.x + v.y * v.y + v.z * v.z :=
    Real.mul_self_sqrt hS.le
  have hL : vlen v ≠ 0 := ne_of_gt h
  have hval : vnormalize v = ⟨v.x / vlen v, v.y / vlen v, v.z / vlen v⟩ := by
    simp only [vnormalize, if_pos h]
  rw [hval]
  have harg : v.x / vlen v * (v.x / vlen v) + v.y / vlen v * (v.y / vlen v) +
      v.z / vlen v * (v.z / vlen v) = 1 := by
    field_simp
    linarith [hL2]
  rw [show vlen ⟨v.x / vlen v, v.y / vlen v, v.z / vlen v⟩ =
      Real.sqrt (v.x / vlen v * (v.x / vlen v) + v.y / vlen v * (v.y / vlen v) +
        v.z / vlen v * (v.z / vlen v)) from rfl]
  rw [harg, Real.sqrt_one]

/-- `vec3.normalize` never grows a length beyond 1: a positive-length
input becomes a unit vector and the zero vector stays the zero vector. -/
theorem vlen_vnormalize_le_one (v : Vec3 ℝ) : vlen (vnormalize v) ≤ 1 := by
  rcases lt_or_le 0 (vlen v) with h | h
  · rw [vlen_vnormalize_of_pos h]
  · have hv : vnormalize v = v := by simp only [vnormalize, if_neg (not_lt.mpr h)]
    rw [hv]
    have h0 : 0 ≤ vlen v := Real.sqrt_nonneg _
    linarith

/-- Cauchy–Schwarz for the embedded `vec3.dot` and lengths. -/
theorem vdot_le_vlen_mul_vlen (a b : Vec3 ℝ) : vdot a b ≤ vlen a * vlen b := by
  have hSa : (0:ℝ) ≤ a.x * a.x + a.y * a.y + a.z * a.z :=
    add_nonneg (add_nonneg (mul_self_nonneg a.x) (mul_self_nonneg a.y)) (mul_self_nonneg a.z)
  have hSb : (0:ℝ) ≤ b.x * b.x + b.y * b.y + b.z * b.z :=
    add_nonneg (add_nonneg (mul_self_nonneg b.x) (mul_self_nonneg b.y)) (mul_self_nonneg b.z)
  have h2 : vdot a b * vdot a b ≤
      (a.x * a.x + a.y * a.y + a.z * a.z) * (b.x * b.x + b.y * b.y + b.z * b.z) := by
    simp only [vdot]
    nlinarith [sq_nonneg (a.x * b.y - a.y * b.x), sq_nonneg (a.x * b.z - a.z * b.x),
      sq_nonneg (a.y * b.z - a.z * b.y)]
  calc vdot a b ≤ |vdot a b| := le_abs_self _
    _ = Real.sqrt (vdot a b * vdot a b) := (Real.sqrt_mul_self_eq_abs _).symm
    _ ≤ Real.sqrt ((a.x * a.x + a.y * a.y + a.z * a.z) *
          (b.x * b.x + b.y * b.y + b.z * b.z)) := Real.sqrt_le_sqrt h2
    _ = vlen a * vlen b := by rw [vlen, vlen, ← Real.sqrt_mul hSa]

/-- The length `Math.sqrt(1*1 + 1*1 + (-1)*(-1))` of the raw light vector
is positive. -/
theorem lightVec_len_pos : 0 < vlen ⟨1, 1, -1⟩ := by
  unfold vlen
  exact Real.sqrt_pos.mpr (by norm_num)

/-- The fixed light direction is a unit vector. -/
theorem vlen_lightDir : vlen lightDir = 1 := by
  simp only [lightDir]
  exact vlen_vnormalize_of_pos lightVec_len_pos

/-- The lighting intensity of any triangle is at most 1. -/
theorem triIntensity_le_one (v1 v2 v3 : Vec3 ℝ) : triIntensity v1 v2 v3 ≤ 1 := by
  have h := vdot_le_vlen_mul_vlen (faceNormal v1 v2 v3) lightDir
  rw [vlen_lightDir, mul_one] at h
  refine h.trans ?_
  simp only [faceNormal]
  exact vlen_vnormalize_le_one _

/-! ## C7: `vec3.normalize` -/

/-- C7: `normalize` returns a unit-length vector whenever the input length
is positive, and returns its input unchanged when the length is `≤ 0` (in
particular on the zero vector); it is a total function, never dividing by
zero. -/
theorem c7_normalize_unit (v : Vec3 ℝ) :
    (0 < vlen v → vlen (vnormalize v) = 1) ∧ (vlen v ≤ 0 → vnormalize v = v) := by
  constructor
  · intro h
    exact vlen_vnormalize_of_pos h
  · intro h
    simp only [vnormalize, if_neg (not_lt.mpr h)]

/-- Witness for C7 at the vector `(3, 4, 0)` of length 5. -/
theorem c7_normalize_unit_witness :
    0 < vlen ⟨3, 4, 0⟩ ∧ vlen (vnormalize ⟨3, 4, 0⟩) = 1 := by
  have h : 0 < vlen (⟨3, 4, 0⟩ : Vec3 ℝ) := by
    unfold vlen
    exact Real.sqrt_pos.mpr (by norm_num)
  exact ⟨h, (c7_normalize_unit _).1 h⟩

/-! ## C4: the forward-axis point at the origin -/

/-- C4 (failing-input evaluation): on the matrix
`projection · view · identity` as the code composes it, the homogeneous
`w` computed by `transformPoint` at the point `(0, 0, 0)` is `0` for every
choice of projection parameters, so the perspective divide at the claimed
input is the degenerate `0 / 0` (NaN in JS), not the screen-center
mapping the claim asserts. -/
theorem c4_w_zero_at_origin (fov aspect near far : ℝ) :
    tpW (matMul (createProjectionMatrix fov aspect near far)
      (matMul (createViewMatrix sceneCamera) mat4create)) ⟨0, 0, 0⟩ = 0 := by
  simp only [tpW, matMul, createProjectionMatrix, createViewMatrix, mat4create,
    sceneCamera]
  ring

/-! ## C3: composition order of the per-cube transform -/

/-- C3 (counterexample): the claim says the world matrix applies the
Y-rotation to the point first and then the X-rotation; at rotation angles
`(π/2, π/2)` and the point `(0, 0, 1)` the code's world matrix
(`multiply(fromXRotation, fromYRotation)`, which applies the X-rotation
to the point first) disagrees with that claimed order. -/
theorem c3_rotation_order_counterexample :
    transformPoint
        (worldMatrix ⟨⟨0, 0, 0⟩, ⟨Real.pi / 2, Real.pi / 2, 0⟩, ⟨1, 1, 1⟩⟩)
        ⟨0, 0, 1⟩ ≠
      transformPoint (fromXRotation (Real.pi / 2))
        (transformPoint (fromYRotation (Real.pi / 2)) ⟨0, 0, 1⟩) := by
  intro h
  have hx := congrArg Vec3.x h
  simp only [worldMatrix, transformPoint, tpW, matMul, fromXRotation, fromYRotation,
    Real.cos_pi_div_two, Real.sin_pi_div_two] at hx
  norm_num at hx

/-- C3 (amended): the combined transform is
`multiply(projection, multiply(view, multiply(fromXRotation, fromYRotation)))`;
the world matrix composes the two rotation matrices only — with the
X-rotation applied to the point first, then the Y-rotation — and the
object's stored `position` (and `scale`) is never applied, so the
transform is independent of it. -/
theorem c3_world_transform_amended (proj view : Mat4) (c : Cube) (p : Vec3 ℝ) :
    cubeTransform proj view c =
      matMul proj (matMul view
        (matMul (fromXRotation c.rotation.x) (fromYRotation c.rotation.y))) ∧
    (∀ pos scl : Vec3 ℝ,
      cubeTransform proj view ⟨pos, c.rotation, scl⟩ = cubeTransform proj view c) ∧
    transformPoint (worldMatrix c) p =
      transformPoint (fromYRotation c.rotation.y)
        (transformPoint (fromXRotation c.rotation.x) p) := by
  refine ⟨rfl, fun pos scl => rfl, ?_⟩
  simp only [worldMatrix, transformPoint, tpW, matMul, fromXRotation, fromYRotation,
    Vec3.mk.injEq]
  norm_num
  exact ⟨by ring, by ring⟩

/-! ## C5: back-face culling -/

/-- C5: a triangle whose object-space face normal has non-positive dot
product with the light direction is discarded: no `drawLine` edges are
emitted and the frame and depth buffers are returned unchanged. -/
theorem c5_backface_cull (W H : ℤ) (ramp : String) (grad : ℝ → RGB ℝ)
    (v1 v2 v3 tv1 tv2 tv3 : Vec3 ℝ) (b : Bufs ℝ)
    (h : triIntensity v1 v2 v3 ≤ 0) :
    triEdges v1 v2 v3 tv1 tv2 tv3 = [] ∧
    processTriangle W H ramp grad v1 v2 v3 tv1 tv2 tv3 b = b := by
  constructor
  · simp only [triEdges, if_neg (not_lt.mpr h)]
  · simp only [processTriangle, if_neg (not_lt.mpr h)]

/-- The concrete components of the normalized light direction. -/
theorem lightDir_eq :
    lightDir = ⟨1 / Real.sqrt 3, 1 / Real.sqrt 3, -1 / Real.sqrt 3⟩ := by
  have harg : ((1:ℝ) * 1 + 1 * 1 + -1 * -1) = 3 := by norm_num
  have h3 : (0:ℝ) < Real.sqrt 3 := Real.sqrt_pos.mpr (by norm_num)
  simp only [lightDir, vnormalize, vlen, harg]
  rw [if_pos h3]

/-- A triangle whose cross product is `(0, 0, 1)` (away from the light). -/
theorem cull_example_intensity :
    triIntensity ⟨0, 0, 0⟩ ⟨1, 0, 0⟩ ⟨0, 1, 0⟩ ≤ 0 := by
  have harg : ((0:ℝ) * 0 + 0 * 0 + 1 * 1) = 1 := by norm_num
  have hn : vnormalize ⟨0, 0, 1⟩ = (⟨0, 0, 1⟩ : Vec3 ℝ) := by
    simp only [vnormalize, vlen, harg, Real.sqrt_one]
    norm_num
  have hc : vcross (vsub ⟨1, 0, 0⟩ ⟨0, 0, 0⟩) (vsub ⟨0, 1, 0⟩ ⟨0, 0, 0⟩) =
      (⟨0, 0, 1⟩ : Vec3 ℝ) := by
    simp only [vsub, vcross]
    norm_num
  simp only [triIntensity, faceNormal, hc, hn, lightDir_eq, vdot]
  rw [show (0:ℝ) * (1 / Real.sqrt 3) + 0 * (1 / Real.sqrt 3) + 1 * (-1 / Real.sqrt 3) =
      -(1 / Real.sqrt 3) by ring]
  exact neg_nonpos.mpr (by positivity)

/-- Witness for C5 on the concrete culled triangle. -/
theorem c5_backface_cull_witness :
    triIntensity ⟨0, 0, 0⟩ ⟨1, 0, 0⟩ ⟨0, 1, 0⟩ ≤ 0 ∧
    (triEdges ⟨0, 0, 0⟩ ⟨1, 0, 0⟩ ⟨0, 1, 0⟩ ⟨5, 5, 0⟩ ⟨9, 5, 0⟩ ⟨5, 9, 0⟩ = [] ∧
     processTriangle 80 24 defaultRamp (fun _ => ⟨0, 0, 0⟩)
       ⟨0, 0, 0⟩ ⟨1, 0, 0⟩ ⟨0, 1, 0⟩ ⟨5, 5, 0⟩ ⟨9, 5, 0⟩ ⟨5, 9, 0⟩ initBufs = initBufs) :=
  ⟨cull_example_intensity,
   c5_backface_cull 80 24 defaultRamp (fun _ => ⟨0, 0, 0⟩) _ _ _ _ _ _ _
     cull_example_intensity⟩

/-! ## C8: the character ramp is never empty and the glyph index is in range -/

/-- C8: every parsed configuration yields a non-empty ramp (an empty
`--ascii` value is discarded before the frame loop in favour of the
default), and for every triangle passing the `intensity > 0` cull the
glyph index `floor(intensity * (rampLength - 1))` is in range. -/
theorem c8_ramp_glyph_in_range (args : List String) (v1 v2 v3 : Vec3 ℝ) :
    0 < (parseAsciiRamp args).length ∧
    (0 < triIntensity v1 v2 v3 →
      0 ≤ glyphIndex (triIntensity v1 v2 v3) (parseAsciiRamp args).length ∧
      glyphIndex (triIntensity v1 v2 v3) (parseAsciiRamp args).length <
        ((parseAsciiRamp args).length : ℤ)) := by
  have hlen : 0 < (parseAsciiRamp args).length := by
    cases h1 : args.indexOf? "--ascii" with
    | none =>
      rw [show parseAsciiRamp args = defaultRamp by simp [parseAsciiRamp, h1]]
      decide
    | some i =>
      cases h2 : args[i + 1]? with
      | none =>
        rw [show parseAsciiRamp args = defaultRamp by simp [parseAsciiRamp, h1, h2]]
        decide
      | some s =>
        by_cases hs : s = ""
        · rw [show parseAsciiRamp args = defaultRamp by simp [parseAsciiRamp, h1, h2, hs]]
          decide
        · rw [show parseAsciiRamp args = s by simp [parseAsciiRamp, h1, h2, hs]]
          cases s with
          | mk data =>
            cases data with
            | nil => exact absurd rfl hs
            | cons c cs => simp [String.length]
  refine ⟨hlen, fun hpos => ?_⟩
  have hle : triIntensity v1 v2 v3 ≤ 1 := triIntensity_le_one v1 v2 v3
  have hL1 : (1:ℝ) ≤ ((parseAsciiRamp args).length : ℝ) := by
    exact_mod_cast Nat.one_le_iff_ne_zero.mpr (Nat.pos_iff_ne_zero.mp hlen)
  constructor
  · apply Int.le_floor.mpr
    push_cast
    exact mul_nonneg hpos.le (by linarith)
  · apply Int.floor_lt.mpr
    push_cast
    have hmul : triIntensity v1 v2 v3 * (((parseAsciiRamp args).length : ℝ) - 1) ≤
        ((parseAsciiRamp args).length : ℝ) - 1 :=
      mul_le_of_le_one_left (by linarith) hle
    linarith

/-- A triangle facing the light: cross product `(0, 0, -1)`. -/
theorem lit_example_intensity :
    0 < triIntensity ⟨0, 0, 0⟩ ⟨0, 1, 0⟩ ⟨1, 0, 0⟩ := by
  have harg : ((0:ℝ) * 0 + 0 * 0 + -1 * -1) = 1 := by norm_num
  have hn : vnormalize ⟨0, 0, -1⟩ = (⟨0, 0, -1⟩ : Vec3 ℝ) := by
    simp only [vnormalize, vlen, harg, Real.sqrt_one]
    norm_num
  have hc : vcross (vsub ⟨0, 1, 0⟩ ⟨0, 0, 0⟩) (vsub ⟨1, 0, 0⟩ ⟨0, 0, 0⟩) =
      (⟨0, 0, -1⟩ : Vec3 ℝ) := by
    simp only [vsub, vcross]
    norm_num
  have h3 : (0:ℝ) < Real.sqrt 3 := Real.sqrt_pos.mpr (by norm_num)
  simp only [triIntensity, faceNormal, hc, hn, lightDir_eq, vdot]
  rw [show (0:ℝ) * (1 / Real.sqrt 3) + 0 * (1 / Real.sqrt 3) + -1 * (-1 / Real.sqrt 3) =
      1 / Real.sqrt 3 by ring]
  positivity

/-- Witness for C8 on the default configuration and a lit triangle. -/
theorem c8_ramp_glyph_in_range_witness :
    0 < triIntensity ⟨0, 0, 0⟩ ⟨0, 1, 0⟩ ⟨1, 0, 0⟩ ∧
    (0 ≤ glyphIndex (triIntensity ⟨0, 0, 0⟩ ⟨0, 1, 0⟩ ⟨1, 0, 0⟩)
        (parseAsciiRamp []).length ∧
     glyphIndex (triIntensity ⟨0, 0, 0⟩ ⟨0, 1, 0⟩ ⟨1, 0, 0⟩)
        (parseAsciiRamp []).length < ((parseAsciiRamp []).length : ℤ)) :=
  ⟨lit_example_intensity,
   (c8_ramp_glyph_in_range [] _ _ _).2 lit_example_intensity⟩

/-! ## Bresenham walk invariant lemmas -/

/-- One iteration of the Bresenham loop body preserves the invariant and
makes strict progress on at least one axis, never overshooting. -/
theorem bres_step (xs ys x1 y1 dx dy sx sy : ℤ)
    (hx1 : x1 = xs + sx * dx) (hy1 : y1 = ys + sy * dy)
    (hsx : sx = 1 ∨ sx = -1) (hsy : sy = 1 ∨ sy = -1)
    {i j x0 y0 err : ℤ} (hinv : BInv xs ys dx dy sx sy i j x0 y0 err)
    (hne : ¬(x0 = x1 ∧ y0 = y1)) :
    ∃ i1 j1 : ℤ,
      BInv xs ys dx dy sx sy i1 j1
        (if -dy < 2 * err then x0 + sx else x0)
        (if 2 * err < dx then y0 + sy else y0)
        (if 2 * err < dx then (if -dy < 2 * err then err - dy else err) + dx
         else (if -dy < 2 * err then err - dy else err)) ∧
      i ≤ i1 ∧ i1 ≤ i + 1 ∧ j ≤ j1 ∧ j1 ≤ j + 1 ∧ i + j < i1 + j1 := by
  obtain ⟨hx0, hy0, herr, hi0, hidx, hj0, hjdy⟩ := hinv
  have hilt : -dy < 2 * err → i < dx := by
    intro hX
    rcases eq_or_lt_of_le hidx with heq | hlt
    · exfalso
      subst heq
      have hx0x1 : x0 = x1 := by rcases hsx with rfl | rfl <;> omega
      have hy0y1 : y0 ≠ y1 := fun h => hne ⟨hx0x1, h⟩
      have hjlt : j < dy := by
        rcases eq_or_lt_of_le hjdy with heq2 | hlt2
        · exfalso
          apply hy0y1
          subst heq2
          rcases hsy with rfl | rfl <;> omega
        · exact hlt2
      have hprod : i * (j + 1) ≤ i * dy :=
        mul_le_mul_of_nonneg_left (by omega) (by omega)
      have hdy1 : 1 ≤ dy := by omega
      nlinarith [hprod, herr, hX]
    · exact hlt
  have hjlt : 2 * err < dx → j < dy := by
    intro hY
    rcases eq_or_lt_of_le hjdy with heq | hlt
    · exfalso
      subst heq
      have hy0y1 : y0 = y1 := by rcases hsy with rfl | rfl <;> omega
      have hx0x1 : x0 ≠ x1 := fun h => hne ⟨h, hy0y1⟩
      have hilt2 : i < dx := by
        rcases eq_or_lt_of_le hidx with heq2 | hlt2
        · exfalso
          apply hx0x1
          subst heq2
          rcases hsx with rfl | rfl <;> omega
        · exact hlt2
      have hprod : j * (i + 1) ≤ j * dx :=
        mul_le_mul_of_nonneg_left (by omega) (by omega)
      have hdx1 : 1 ≤ dx := by omega
      nlinarith [hprod, herr, hY]
    · exact hlt
  by_cases hX : -dy < 2 * err <;> by_cases hY : 2 * err < dx
  · refine ⟨i + 1, j + 1, ⟨?_, ?_, ?_, by omega, by omega, by omega, by omega⟩,
      by omega, by omega, by omega, by omega, by omega⟩
    · rw [if_pos hX, hx0]; ring
    · rw [if_pos hY, hy0]; ring
    · rw [if_pos hY, if_pos hX, herr]; ring
  · refine ⟨i + 1, j, ⟨?_, ?_, ?_, by omega, by omega, by omega, by omega⟩,
      by omega, by omega, by omega, by omega, by omega⟩
    · rw [if_pos hX, hx0]; ring
    · rw [if_neg hY]; exact hy0
    · rw [if_neg hY, if_pos hX, herr]; ring
  · refine ⟨i, j + 1, ⟨?_, ?_, ?_, by omega, by omega, by omega, by omega⟩,
      by omega, by omega, by omega, by omega, by omega⟩
    · rw [if_neg hX]; exact hx0
    · rw [if_pos hY, hy0]; ring
    · rw [if_pos hY, if_neg hX, herr]; ring
  · exfalso
    have hdx0 : 0 ≤ dx := le_trans hi0 hidx
    have hdy0 : 0 ≤ dy := le_trans hj0 hjdy
    have hzero : dx = 0 ∧ dy = 0 := by omega
    have hi00 : i = 0 := by omega
    have hj00 : j = 0 := by omega
    apply hne
    constructor
    · rw [hx0, hi00, hx1, hzero.1]
    · rw [hy0, hj00, hy1, hzero.2]

/-- The fuelled Bresenham walk, started in an invariant state with enough
fuel, begins at the current pixel, ends at the endpoint `(x1, y1)`, and
its consecutive pixels are related by `WalkRel`. -/
theorem bresWalk_spec (xs ys x1 y1 dx dy sx sy : ℤ)
    (hx1 : x1 = xs + sx * dx) (hy1 : y1 = ys + sy * dy)
    (hsx : sx = 1 ∨ sx = -1) (hsy : sy = 1 ∨ sy = -1) :
    ∀ (fuel : ℕ) (i j x0 y0 err : ℤ),
      BInv xs ys dx dy sx sy i j x0 y0 err →
      (dx - i) + (dy - j) < (fuel : ℤ) →
      (bresWalk x1 y1 dx dy sx sy fuel x0 y0 err).head? = some (x0, y0) ∧
      (bresWalk x1 y1 dx dy sx sy fuel x0 y0 err).getLast? = some (x1, y1) ∧
      List.Chain' (WalkRel xs ys dx dy sx sy)
        (bresWalk x1 y1 dx dy sx sy fuel x0 y0 err) := by
  intro fuel
  induction fuel with
  | zero =>
    intro i j x0 y0 err hinv hlt
    exfalso
    obtain ⟨_, _, _, hi0, hidx, hj0, hjdy⟩ := hinv
    omega
  | succ fuel ih =>
    intro i j x0 y0 err hinv hlt
    by_cases hend : x0 = x1 ∧ y0 = y1
    · rw [bresWalk, if_pos hend]
      refine ⟨rfl, ?_, List.chain'_singleton _⟩
      rw [hend.1, hend.2]
      rfl
    · obtain ⟨i1, j1, hinv1, hii1, hii2, hjj1, hjj2, hprog⟩ :=
        bres_step xs ys x1 y1 dx dy sx sy hx1 hy1 hsx hsy hinv hend
      have hb1 : i1 ≤ dx := hinv1.2.2.2.2.1
      have hb2 : j1 ≤ dy := hinv1.2.2.2.2.2.2
      have hlt1 : (dx - i1) + (dy - j1) < (fuel : ℤ) := by
        push_cast at hlt
        omega
      obtain ⟨hhead, hlast, hchain⟩ := ih i1 j1 _ _ _ hinv1 hlt1
      rw [bresWalk, if_neg hend]
      cases hr : bresWalk x1 y1 dx dy sx sy fuel
          (if -dy < 2 * err then x0 + sx else x0)
          (if 2 * err < dx then y0 + sy else y0)
          (if 2 * err < dx then (if -dy < 2 * err then err - dy else err) + dx
           else (if -dy < 2 * err then err - dy else err)) with
      | nil =>
        rw [hr] at hhead
        exact absurd hhead (by simp)
      | cons hd tl =>
        rw [hr] at hhead hlast hchain
        have hhd : hd = ((if -dy < 2 * err then x0 + sx else x0),
            (if 2 * err < dx then y0 + sy else y0)) := by
          simpa using hhead
        refine ⟨rfl, ?_, ?_⟩
        · rw [List.getLast?_cons_cons]
          exact hlast
        · rw [List.chain'_cons]
          refine ⟨?_, hchain⟩
          obtain ⟨hx0, hy0, herr, hi0, hidx, hj0, hjdy⟩ := hinv
          obtain ⟨hx0n, hy0n, herrn, hi0n, hidxn, hj0n, hjdyn⟩ := hinv1
          refine ⟨i, j, i1, j1, hi0, hidx, hj0, hjdy, hidxn, hjdyn, ?_, ?_,
            hii1, hii2, hjj1, hjj2, hprog⟩
          · rw [hx0, hy0]
          · rw [hhd, hx0n, hy0n]

/-- Decomposition of an endpoint as start plus signed absolute distance,
matching the `sx`/`dx` initialisation of `drawLine`. -/
theorem sign_abs_decomp (a b : ℤ) : b = a + (if a < b then 1 else -1) * |b - a| := by
  by_cases h : a < b
  · rw [if_pos h, one_mul, abs_of_nonneg (by omega)]
    omega
  · rw [if_neg h, abs_of_nonpos (by omega)]
    omega

/-- The step direction computed by `drawLine` is `1` or `-1`. -/
theorem ite_sign (a b : ℤ) :
    (if a < b then (1:ℤ) else -1) = 1 ∨ (if a < b then (1:ℤ) else -1) = -1 := by
  by_cases h : a < b
  · exact Or.inl (if_pos h)
  · exact Or.inr (if_neg h)

/-- The pixel walk of a `drawLine` call starts at the rounded start point,
ends at the rounded end point, and steps through `WalkRel`. -/
theorem linePixels_spec (p1 p2 : Vec3 ℝ) :
    (linePixels p1 p2).head? = some (round p1.x, round p1.y) ∧
    (linePixels p1 p2).getLast? = some (round p2.x, round p2.y) ∧
    List.Chain' (WalkRel (round p1.x) (round p1.y)
      |round p2.x - round p1.x| |round p2.y - round p1.y|
      (if round p1.x < round p2.x then 1 else -1)
      (if round p1.y < round p2.y then 1 else -1)) (linePixels p1 p2) := by
  have hinv : BInv (round p1.x) (round p1.y)
      |round p2.x - round p1.x| |round p2.y - round p1.y|
      (if round p1.x < round p2.x then 1 else -1)
      (if round p1.y < round p2.y then 1 else -1) 0 0 (round p1.x) (round p1.y)
      (|round p2.x - round p1.x| - |round p2.y - round p1.y|) :=
    ⟨by ring, by ring, by ring, le_refl 0, abs_nonneg _, le_refl 0, abs_nonneg _⟩
  have hfuel : (|round p2.x - round p1.x| - 0) + (|round p2.y - round p1.y| - 0) <
      ((bresFuel |round p2.x - round p1.x| |round p2.y - round p1.y| : ℕ) : ℤ) := by
    simp only [bresFuel]
    push_cast
    omega
  have h := bresWalk_spec (round p1.x) (round p1.y) (round p2.x) (round p2.y)
    |round p2.x - round p1.x| |round p2.y - round p1.y|
    (if round p1.x < round p2.x then 1 else -1)
    (if round p1.y < round p2.y then 1 else -1)
    (sign_abs_decomp _ _) (sign_abs_decomp _ _) (ite_sign _ _) (ite_sign _ _)
    (bresFuel |round p2.x - round p1.x| |round p2.y - round p1.y|)
    0 0 (round p1.x) (round p1.y)
    (|round p2.x - round p1.x| - |round p2.y - round p1.y|) hinv hfuel
  simpa only [linePixels] using h

/-- Remaining distance to the endpoint along one axis after `i` steps. -/
theorem abs_rem (xs x1 dx sx i : ℤ) (hx1 : x1 = xs + sx * dx)
    (hsx : sx = 1 ∨ sx = -1) (hi0 : 0 ≤ i) (hidx : i ≤ dx) :
    |x1 - (xs + sx * i)| = dx - i := by
  subst hx1
  rcases hsx with rfl | rfl
  · rw [show xs + 1 * dx - (xs + 1 * i) = dx - i by ring]
    exact abs_of_nonneg (by omega)
  · rw [show xs + -1 * dx - (xs + -1 * i) = -(dx - i) by ring, abs_neg]
    exact abs_of_nonneg (by omega)

/-! ## C9: termination of the Bresenham loop -/

/-- C9: for every pair of endpoints, the `drawLine` Bresenham loop
terminates: its pixel list ends at the rounded endpoint, and every
iteration strictly decreases the remaining grid distance to that
endpoint. -/
theorem c9_drawLine_terminates (p1 p2 : Vec3 ℝ) :
    (linePixels p1 p2).getLast? = some (round p2.x, round p2.y) ∧
    List.Chain' (fun a b : ℤ × ℤ =>
      |round p2.x - b.1| + |round p2.y - b.2| <
      |round p2.x - a.1| + |round p2.y - a.2|) (linePixels p1 p2) := by
  obtain ⟨hh, hl, hc⟩ := linePixels_spec p1 p2
  refine ⟨hl, hc.imp ?_⟩
  intro a b hR
  obtain ⟨i, j, i1, j1, hi0, hidx, hj0, hjdy, hidxn, hjdyn, rfl, rfl,
    h1, h2, h3, h4, h5⟩ := hR
  dsimp only
  rw [abs_rem _ _ _ _ _ (sign_abs_decomp (round p1.x) (round p2.x)) (ite_sign _ _) hi0 hidx,
    abs_rem _ _ _ _ _ (sign_abs_decomp (round p1.y) (round p2.y)) (ite_sign _ _) hj0 hjdy,
    abs_rem _ _ _ _ _ (sign_abs_decomp (round p1.x) (round p2.x)) (ite_sign _ _)
      (by omega) hidxn,
    abs_rem _ _ _ _ _ (sign_abs_decomp (round p1.y) (round p2.y)) (ite_sign _ _)
      (by omega) hjdyn]
  omega

/-- One lattice step away from the rounded start never decreases the
squared distance to the float start coordinate (the start is within 1/2
of its rounding). -/
theorem step_sq_le (px : ℝ) (sx k k1 : ℤ) (hsx : sx = 1 ∨ sx = -1) (hk : 0 ≤ k)
    (hk1 : k1 = k ∨ k1 = k + 1) :
    (((round px + sx * k : ℤ) : ℝ) - px) ^ 2 ≤
      (((round px + sx * k1 : ℤ) : ℝ) - px) ^ 2 := by
  rcases hk1 with rfl | rfl
  · exact le_refl _
  · have hr := abs_le.mp (abs_sub_round px)
    have hk' : (0:ℝ) ≤ (k : ℝ) := by exact_mod_cast hk
    rcases hsx with rfl | rfl
    · push_cast
      nlinarith [hr.1, hr.2, hk']
    · push_cast
      nlinarith [hr.1, hr.2, hk']

/-- Along the Bresenham walk, the interpolation parameter `t` of
`drawLine` is monotone non-decreasing (the denominator is the fixed
distance from the rounded end to the float start). -/
theorem lineT_mono (p1 p2 : Vec3 ℝ)
    (hD : ((round p2.x : ℝ) - p1.x) ^ 2 + ((round p2.y : ℝ) - p1.y) ^ 2 ≠ 0)
    (a b : ℤ × ℤ)
    (hR : WalkRel (round p1.x) (round p1.y)
      |round p2.x - round p1.x| |round p2.y - round p1.y|
      (if round p1.x < round p2.x then 1 else -1)
      (if round p1.y < round p2.y then 1 else -1) a b) :
    lineT p1 p2 a ≤ lineT p1 p2 b := by
  obtain ⟨i, j, i1, j1, hi0, hidx, hj0, hjdy, hidxn, hjdyn, rfl, rfl,
    h1, h2, h3, h4, h5⟩ := hR
  have hxstep := step_sq_le p1.x (if round p1.x < round p2.x then 1 else -1) i i1
    (ite_sign _ _) hi0 (by omega)
  have hystep := step_sq_le p1.y (if round p1.y < round p2.y then 1 else -1) j j1
    (ite_sign _ _) hj0 (by omega)
  have hS : (0:ℝ) < ((round p2.x : ℝ) - p1.x) ^ 2 + ((round p2.y : ℝ) - p1.y) ^ 2 :=
    lt_of_le_of_ne (by positivity) (Ne.symm hD)
  have hDpos : 0 < Real.sqrt (((round p2.x : ℝ) - p1.x) ^ 2 + ((round p2.y : ℝ) - p1.y) ^ 2) :=
    Real.sqrt_pos.mpr hS
  simp only [lineT]
  gcongr


/-! ## C2: depth interpolation along `drawLine` -/

/-- C2 (counterexample): for `p1 = (1/2, 0, 0)` and `p2 = (2, 0, 1)` the
depth passed to `drawPixel` at the first stepped pixel is `1/3`, not the
endpoint depth `z1 = 0`: the parameter `t` is measured from the float
start to the rounded first pixel, which differ. -/
theorem c2_first_depth_counterexample :
    (lineDepths ⟨1/2, 0, 0⟩ ⟨2, 0, 1⟩).head? ≠
      some ((⟨1/2, 0, 0⟩ : Vec3 ℝ).z) := by
  have hr1 : round ((1:ℝ)/2) = 1 := by norm_num [round_eq]
  have hr2 : round ((2:ℝ)) = 2 := by norm_num [round_eq]
  have hr0 : round ((0:ℝ)) = 0 := by norm_num [round_eq]
  have hhead := (linePixels_spec ⟨1/2, 0, 0⟩ ⟨2, 0, 1⟩).1
  simp only [hr1, hr0] at hhead
  have hmap : (lineDepths ⟨1/2, 0, 0⟩ ⟨2, 0, 1⟩).head? =
      ((linePixels ⟨1/2, 0, 0⟩ ⟨2, 0, 1⟩).head?).map (lineZ ⟨1/2, 0, 0⟩ ⟨2, 0, 1⟩) :=
    List.head?_map _ _
  rw [hmap, hhead]
  have ht : lineT ⟨1/2, 0, 0⟩ ⟨2, 0, 1⟩ (1, 0) = 1/3 := by
    unfold lineT
    dsimp only
    rw [hr2, hr0]
    push_cast
    rw [show ((1:ℝ) - 1/2) ^ 2 + ((0:ℝ) - 0) ^ 2 = (1/2) ^ 2 by norm_num,
      show ((2:ℝ) - 1/2) ^ 2 + ((0:ℝ) - 0) ^ 2 = (3/2) ^ 2 by norm_num,
      Real.sqrt_sq (by norm_num : (0:ℝ) ≤ 1/2),
      Real.sqrt_sq (by norm_num : (0:ℝ) ≤ 3/2)]
    norm_num
  have hz : lineZ ⟨1/2, 0, 0⟩ ⟨2, 0, 1⟩ (1, 0) = 1/3 := by
    unfold lineZ
    rw [ht]
    dsimp only
    norm_num
  intro h
  have h2 : lineZ ⟨1/2, 0, 0⟩ ⟨2, 0, 1⟩ (1, 0) = 0 := by simpa using h
  rw [hz] at h2
  norm_num at h2

/-- C2 (amended): when the start point has round-stable (integer)
coordinates and the rounded end point differs from the float start (the
interpolation denominator is nonzero), the interpolated depths of
`drawLine` are monotone along the walk, the depth at the first stepped
pixel equals exactly `z1` and the depth at the last stepped pixel equals
exactly `z2`; the parameter `t` is measured from the float start `p1` to
the stepped pixel, against the distance from the float start to the
ROUNDED end point. -/
theorem c2_line_depths_amended (p1 p2 : Vec3 ℝ)
    (hx : ((round p1.x : ℤ) : ℝ) = p1.x) (hy : ((round p1.y : ℤ) : ℝ) = p1.y)
    (hD : ((round p2.x : ℝ) - p1.x) ^ 2 + ((round p2.y : ℝ) - p1.y) ^ 2 ≠ 0) :
    (lineDepths p1 p2).head? = some p1.z ∧
    (lineDepths p1 p2).getLast? = some p2.z ∧
    List.Chain' (fun a b => a ≤ b) ((linePixels p1 p2).map (lineT p1 p2)) ∧
    (p1.z ≤ p2.z → List.Chain' (fun a b => a ≤ b) (lineDepths p1 p2)) ∧
    (p2.z ≤ p1.z → List.Chain' (fun a b => b ≤ a) (lineDepths p1 p2)) := by
  obtain ⟨hh, hl, hc⟩ := linePixels_spec p1 p2
  have hDpos : 0 < Real.sqrt (((round p2.x : ℝ) - p1.x) ^ 2 +
      ((round p2.y : ℝ) - p1.y) ^ 2) :=
    Real.sqrt_pos.mpr (lt_of_le_of_ne (by positivity) (Ne.symm hD))
  have ht0 : lineT p1 p2 (round p1.x, round p1.y) = 0 := by
    unfold lineT
    dsimp only
    rw [hx, hy]
    simp
  have ht1 : lineT p1 p2 (round p2.x, round p2.y) = 1 := by
    unfold lineT
    dsimp only
    exact div_self (ne_of_gt hDpos)
  have hz0 : lineZ p1 p2 (round p1.x, round p1.y) = p1.z := by
    unfold lineZ
    rw [ht0]
    ring
  have hz1 : lineZ p1 p2 (round p2.x, round p2.y) = p2.z := by
    unfold lineZ
    rw [ht1]
    ring
  have htchain : List.Chain' (fun a b => a ≤ b)
      ((linePixels p1 p2).map (lineT p1 p2)) := by
    rw [List.chain'_map]
    exact hc.imp (fun a b h => lineT_mono p1 p2 hD a b h)
  refine ⟨?_, ?_, htchain, ?_, ?_⟩
  · rw [lineDepths, List.head?_map, hh]
    simp [hz0]
  · rw [lineDepths, List.getLast?_map, hl]
    simp [hz1]
  · intro hle
    rw [lineDepths, List.chain'_map]
    refine ((List.chain'_map (lineT p1 p2)).mp htchain).imp ?_
    intro a b h
    unfold lineZ
    exact add_le_add_left (mul_le_mul_of_nonneg_left h (by linarith)) _
  · intro hle
    rw [lineDepths, List.chain'_map]
    refine ((List.chain'_map (lineT p1 p2)).mp htchain).imp ?_
    intro a b h
    unfold lineZ
    exact add_le_add_left (mul_le_mul_of_nonpos_left h (by linarith)) _

/-- Witness for the amended C2 on the segment from `(0,0,5)` to
`(2,0,7)`. -/
theorem c2_line_depths_amended_witness :
    (((round ((⟨0, 0, 5⟩ : Vec3 ℝ).x) : ℤ) : ℝ) = (⟨0, 0, 5⟩ : Vec3 ℝ).x) ∧
    (lineDepths ⟨0, 0, 5⟩ ⟨2, 0, 7⟩).head? = some (5:ℝ) ∧
    (lineDepths ⟨0, 0, 5⟩ ⟨2, 0, 7⟩).getLast? = some (7:ℝ) := by
  have hx : ((round ((⟨0, 0, 5⟩ : Vec3 ℝ).x) : ℤ) : ℝ) = (⟨0, 0, 5⟩ : Vec3 ℝ).x := by
    simp
  have hy : ((round ((⟨0, 0, 5⟩ : Vec3 ℝ).y) : ℤ) : ℝ) = (⟨0, 0, 5⟩ : Vec3 ℝ).y := by
    simp
  have hD : ((round ((⟨2, 0, 7⟩ : Vec3 ℝ).x) : ℝ) - (⟨0, 0, 5⟩ : Vec3 ℝ).x) ^ 2 +
      ((round ((⟨2, 0, 7⟩ : Vec3 ℝ).y) : ℝ) - (⟨0, 0, 5⟩ : Vec3 ℝ).y) ^ 2 ≠ 0 := by
    norm_num [round_eq]
  have h := c2_line_depths_amended ⟨0, 0, 5⟩ ⟨2, 0, 7⟩ hx hy hD
  exact ⟨hx, h.1, h.2.1⟩

/-! ## C1: z-buffer correctness over a frame -/

/-- Distinct in-bounds cells have distinct flat indices. -/
theorem cell_index_inj (W x x2 y y2 : ℤ) (hx : 0 ≤ x) (hxW : x < W)
    (hx2 : 0 ≤ x2) (hx2W : x2 < W) (h : y2 * W + x2 = y * W + x) :
    x2 = x ∧ y2 = y := by
  rcases lt_trichotomy y2 y with hlt | heq | hgt
  · exfalso
    have h1 : y2 - y ≤ -1 := by omega
    have h2 : (y2 - y) * W ≤ -1 * W := mul_le_mul_of_nonneg_right h1 (by omega)
    nlinarith
  · subst heq
    have : x2 = x := by linarith
    exact ⟨this, rfl⟩
  · exfalso
    have h1 : 1 ≤ y2 - y := by omega
    have h2 : 1 * W ≤ (y2 - y) * W := mul_le_mul_of_nonneg_right h1 (by omega)
    nlinarith

/-- A `drawPixel` call whose rounded coordinates are not the in-bounds
cell `(x, y)` leaves that cell of the depth buffer unchanged. -/
theorem drawPixel_miss_cell {α : Type} [LinearOrderedField α] [FloorRing α]
    (W H x y : ℤ) (hx : 0 ≤ x) (hxW : x < W) (hy : 0 ≤ y) (hyH : y < H)
    (f : Frag α) (fb : ℤ → FrameCell) (zb : ℤ → WithTop α)
    (hmiss : ¬(round f.x = x ∧ round f.y = y)) :
    (drawPixel W H f.x f.y f.z f.ch f.color fb zb).2 (y * W + x) = zb (y * W + x) := by
  by_cases hg : round f.x < 0 ∨ W ≤ round f.x ∨ round f.y < 0 ∨ H ≤ round f.y
  · simp only [drawPixel, if_pos hg]
  · have hg2 := hg
    push_neg at hg2
    by_cases hz : (f.z : WithTop α) < zb (round f.y * W + round f.x)
    · simp only [drawPixel, if_neg hg, if_pos hz]
      apply Function.update_noteq
      intro heq
      exact hmiss (cell_index_inj W x (round f.x) y (round f.y) hx hxW hg2.1
        hg2.2.1 heq.symm)
    · simp only [drawPixel, if_neg hg, if_neg hz]

/-- The stored depth of an in-bounds cell after a sequence of `drawPixel`
calls is the running minimum, over the fragments addressing that cell, of
their depths, folded onto the initial stored depth. -/
theorem runFrags_zb {α : Type} [LinearOrderedField α] [FloorRing α]
    (W H x y : ℤ) (hx : 0 ≤ x) (hxW : x < W) (hy : 0 ≤ y) (hyH : y < H) :
    ∀ (l : List (Frag α)) (b : Bufs α),
      (runFrags W H l b).2 (y * W + x) =
        ((l.filter (fun f => round f.x = x ∧ round f.y = y)).map
          (fun f => (f.z : WithTop α))).foldl min (b.2 (y * W + x)) := by
  intro l
  induction l with
  | nil => intro b; rfl
  | cons f t ih =>
    intro b
    by_cases hhit : round f.x = x ∧ round f.y = y
    · have hng : ¬(x < 0 ∨ W ≤ x ∨ y < 0 ∨ H ≤ y) := by omega
      have hstep : (drawPixel W H f.x f.y f.z f.ch f.color b.1 b.2).2 (y * W + x) =
          min (b.2 (y * W + x)) (f.z : WithTop α) := by
        simp only [drawPixel, hhit.1, hhit.2, if_neg hng]
        by_cases hz : (f.z : WithTop α) < b.2 (y * W + x)
        · rw [if_pos hz]
          show Function.update b.2 (y * W + x) (f.z : WithTop α) (y * W + x) = _
          rw [Function.update_same, min_eq_right hz.le]
        · rw [if_neg hz]
          show b.2 (y * W + x) = _
          rw [min_eq_left (le_of_not_lt hz)]
      rw [show runFrags W H (f :: t) b =
        runFrags W H t (drawPixel W H f.x f.y f.z f.ch f.color b.1 b.2) from rfl]
      rw [ih, hstep, List.filter_cons_of_pos (by simpa using hhit)]
      simp only [List.map_cons, List.foldl_cons]
    · rw [show runFrags W H (f :: t) b =
        runFrags W H t (drawPixel W H f.x f.y f.z f.ch f.color b.1 b.2) from rfl]
      rw [ih, drawPixel_miss_cell W H x y hx hxW hy hyH f b.1 b.2 hhit,
        List.filter_cons_of_neg (by simpa using hhit)]

/-- C1: after all `drawPixel` calls of a frame, the depth stored at every
in-bounds cell equals the minimum of its initial value `⊤` (Infinity) and
the depths of all fragments whose rounded coordinates addressed that
cell, regardless of write order. -/
theorem c1_zbuffer_min {α : Type} [LinearOrderedField α] [FloorRing α]
    (W H x y : ℤ) (l : List (Frag α))
    (hx : 0 ≤ x) (hxW : x < W) (hy : 0 ≤ y) (hyH : y < H) :
    (runFrags W H l initBufs).2 (y * W + x) =
      ((l.filter (fun f => round f.x = x ∧ round f.y = y)).map
        (fun f => (f.z : WithTop α))).foldl min ⊤ :=
  runFrags_zb W H x y hx hxW hy hyH l initBufs

/-- Witness for C1 at a concrete cell and fragment list. -/
theorem c1_zbuffer_min_witness :
    ((0:ℤ) ≤ 1 ∧ (1:ℤ) < 4 ∧ (0:ℤ) ≤ 2 ∧ (2:ℤ) < 3) ∧
    (runFrags 4 3 [⟨1, 2, 9, 'a', ⟨0, 0, 0⟩⟩] (initBufs (α := ℚ))).2 (2 * 4 + 1) =
      (([(⟨1, 2, 9, 'a', ⟨0, 0, 0⟩⟩ : Frag ℚ)].filter
        (fun f => round f.x = 1 ∧ round f.y = 2)).map
        (fun f => (f.z : WithTop ℚ))).foldl min ⊤ :=
  ⟨⟨by decide, by decide, by decide, by decide⟩,
   c1_zbuffer_min 4 3 1 2 _ (by decide) (by decide) (by decide) (by decide)⟩

end TC
